import Mathlib

/-!
Verification of the `giotto.diagram` persistence-diagram engine and the
`giotto.mapper.utils.decorators` adapter.

The diagram engine (`distance.py`, `features.py`, `preprocessing.py`) is
re-imported by `giotto/diagram/__init__.py` but its implementation files are
not part of the provided sources, so the definitions below for metric
kernels, feature extractors and preprocessing transformers are modelled from
the specification document.  The decorator utility
(`giotto/mapper/utils/decorators.py`) is present in full and is embedded
directly.

Points of a persistence diagram are pairs `(birth, death)` of rationals; a
diagram restricted to one homology dimension is a list of such points.
-/

/-- Modelled from the spec: a point of a persistence diagram restricted to one
homology dimension, `(birth, death)`. -/
abbrev Pt : Type := ℚ × ℚ

/-- Kernel-computable maximum of two rationals. -/
def qmax (a b : ℚ) : ℚ := if a ≤ b then b else a

/-- Kernel-computable minimum of two rationals. -/
def qmin (a b : ℚ) : ℚ := if a ≤ b then a else b

/-- Kernel-computable absolute value of a rational. -/
def qabs (a : ℚ) : ℚ := if 0 ≤ a then a else -a

/-- Kernel-computable power of a rational. -/
def qpow (a : ℚ) : ℕ → ℚ
  | 0 => 1
  | n + 1 => a * qpow a n

/-- Modelled from the spec (§4.5): Chebyshev distance on `(birth, death)`
between two points. -/
def cheb (p q : Pt) : ℚ := qmax (qabs (p.1 - q.1)) (qabs (p.2 - q.2))

/-- Modelled from the spec (§4.5): cost of matching a point to the diagonal,
half its own persistence. -/
def diagCost (p : Pt) : ℚ := (p.2 - p.1) / 2

/-- All ways to remove one element from a list, returning the element and the
remaining list. -/
def pick : List α → List (α × List α)
  | [] => []
  | a :: as => (a, as) :: (pick as).map (fun q => (q.1, a :: q.2))

/-- Modelled from the spec (§4.5, missing `distance.py`): enumeration of all
perfect matchings between two diagrams where any point may be matched to the
diagonal.  Each matching is represented by the list of its pair costs:
`cheb` for point-point pairs, `diagCost` for point-diagonal pairs. -/
def matchings : List Pt → List Pt → List (List ℚ)
  | [], ys => [ys.map diagCost]
  | x :: xs, ys =>
      (matchings xs ys).map (fun cs => diagCost x :: cs)
        ++ (pick ys).flatMap (fun q => (matchings xs q.2).map (fun cs => cheb x q.1 :: cs))

/-- Maximum of a list of costs, `0` for the empty matching. -/
def aggMax (cs : List ℚ) : ℚ := cs.foldr qmax 0

/-- Sum of `p`-th powers of a list of costs. -/
def sumPow (p : ℕ) (cs : List ℚ) : ℚ := (cs.map (fun c => qpow c p)).sum

/-- Minimum of a list of rationals (`0` if the list is empty; every use is on
a nonempty list). -/
def listMinD : List ℚ → ℚ
  | [] => 0
  | c :: cs => cs.foldr qmin c

/-- Modelled from the spec (§4.5, missing `distance.py`): the bottleneck
metric kernel — the minimum over perfect matchings (diagonal matches allowed)
of the maximum pair cost. -/
def bottleneck (xs ys : List Pt) : ℚ := listMinD ((matchings xs ys).map aggMax)

/-- Modelled from the spec (§4.5, missing `distance.py`): the `p`-th power of
the Wasserstein-`p` metric kernel — the minimum over perfect matchings of the
sum of `p`-th powers of pair costs. -/
def wassersteinPow (p : ℕ) (xs ys : List Pt) : ℚ :=
  listMinD ((matchings xs ys).map (sumPow p))

/-- Modelled from the spec (§4.5, missing `distance.py`): the Wasserstein-`p`
metric kernel, the `p`-th root of `wassersteinPow`. -/
noncomputable def wassersteinDist (p : ℕ) (xs ys : List Pt) : ℝ :=
  ((wassersteinPow p xs ys : ℚ) : ℝ) ^ ((p : ℝ)⁻¹)

/-- Modelled from the spec (§4.4, missing `features.py`): the Betti number of
a diagram at filtration value `t` — the count of points with
`birth ≤ t < death`. -/
def bettiAt (xs : List Pt) (t : ℚ) : ℕ :=
  (xs.filter (fun p => decide (p.1 ≤ t ∧ t < p.2))).length

/-- Betti curve sampled on a fit-time grid, as a real feature vector. -/
noncomputable def bettiFeat (grid : List ℚ) (xs : List Pt) : List ℝ :=
  grid.map (fun t => (bettiAt xs t : ℝ))

/-- Modelled from the spec (§4.4, missing `features.py`): tent function of a
point, peaking at `((birth+death)/2, (death-birth)/2)` and zero outside
`[birth, death]`. -/
def tent (p : Pt) (t : ℚ) : ℚ := qmax 0 (qmin (t - p.1) (p.2 - t))

/-- The `k`-th largest value of a list (`k` counted from 1), `0` when the
list has fewer than `k` entries. -/
def kthLargest (k : ℕ) (vals : List ℚ) : ℚ :=
  (List.insertionSort (fun a b => b ≤ a) vals).getD (k - 1) 0

/-- Modelled from the spec (§4.4, missing `features.py`): persistence
landscape — for layers `k = 1..K` and each grid value `t`, the `k`-th largest
tent value across the diagram's points; layers are concatenated. -/
def landFeatQ (K : ℕ) (grid : List ℚ) (xs : List Pt) : List ℚ :=
  ((List.range K).map
    (fun k => grid.map (fun t => kthLargest (k + 1) (xs.map (fun p => tent p t))))).flatten

/-- Persistence landscape as a real feature vector. -/
noncomputable def landFeat (K : ℕ) (grid : List ℚ) (xs : List Pt) : List ℝ :=
  (landFeatQ K grid xs).map (fun (a : ℚ) => (a : ℝ))

/-- Gaussian of bandwidth `σ` centred at `v`, evaluated at `u`. -/
noncomputable def gauss (σ : ℝ) (u v : ℚ × ℚ) : ℝ :=
  Real.exp (-((((u.1 : ℝ) - (v.1 : ℝ)) ^ 2 + ((u.2 : ℝ) - (v.2 : ℝ)) ^ 2) / (2 * σ ^ 2)))

/-- Modelled from the spec (§4.4, missing `features.py`): heat-kernel
rasterization — at each grid pixel, the sum over points of a Gaussian centred
at the point minus a mirrored Gaussian centred at its reflection across the
diagonal. -/
noncomputable def heatFeat (σ : ℝ) (hgrid : List (ℚ × ℚ)) (xs : List Pt) : List ℝ :=
  hgrid.map (fun u => (xs.map (fun p => gauss σ u (p.1, p.2) - gauss σ u (p.2, p.1))).sum)

/-- Euclidean (L2) norm of a feature vector. -/
noncomputable def l2norm (v : List ℝ) : ℝ :=
  Real.sqrt ((v.map (fun a => a ^ 2)).sum)

/-- Euclidean (L2) norm of the difference of two feature vectors of equal
length. -/
noncomputable def l2diff (v w : List ℝ) : ℝ :=
  Real.sqrt (((List.zipWith (fun a b => a - b) v w).map (fun a => a ^ 2)).sum)

/-- Modelled from the spec (§4.5): the supported metric names. -/
inductive MetricKind : Type
  | bottleneck : MetricKind
  | wasserstein : ℕ → MetricKind
  | landscape : MetricKind
  | betti : MetricKind
  | heat : MetricKind

/-- Modelled from the spec (§3, Fit State): fit-time parameters shared by the
metric kernels — sampling grid, number of landscape layers, heat-kernel pixel
grid and bandwidth. -/
structure MetricParams : Type where
  grid : List ℚ
  layers : ℕ
  hgrid : List (ℚ × ℚ)
  sigma : ℝ

/-- Modelled from the spec (§4.5, missing `distance.py`): the metric kernel
selected by name.  `bottleneck` and `wasserstein` are matching-based;
`landscape`, `betti` and `heat` are the L2 norm of the difference of the two
diagrams' feature vectors. -/
noncomputable def metricDist (pr : MetricParams) : MetricKind → List Pt → List Pt → ℝ
  | MetricKind.bottleneck, xs, ys => ((bottleneck xs ys : ℚ) : ℝ)
  | MetricKind.wasserstein p, xs, ys => wassersteinDist p xs ys
  | MetricKind.landscape, xs, ys =>
      l2diff (landFeat pr.layers pr.grid xs) (landFeat pr.layers pr.grid ys)
  | MetricKind.betti, xs, ys => l2diff (bettiFeat pr.grid xs) (bettiFeat pr.grid ys)
  | MetricKind.heat, xs, ys => l2diff (heatFeat pr.sigma pr.hgrid xs) (heatFeat pr.sigma pr.hgrid ys)

/-- Modelled from the spec (§4.5, missing `distance.py`, `DiagramAmplitude`):
the amplitude of one diagram.  For `landscape`/`betti`/`heat` it is the norm
of the diagram's own feature vector; for `bottleneck`/`wasserstein` it
matches every point to the diagonal under the half-persistence cost
convention. -/
noncomputable def amplitude (pr : MetricParams) : MetricKind → List Pt → ℝ
  | MetricKind.bottleneck, xs => (((xs.map diagCost).foldr qmax 0 : ℚ) : ℝ)
  | MetricKind.wasserstein p, xs => ((sumPow p (xs.map diagCost) : ℚ) : ℝ) ^ ((p : ℝ)⁻¹)
  | MetricKind.landscape, xs => l2norm (landFeat pr.layers pr.grid xs)
  | MetricKind.betti, xs => l2norm (bettiFeat pr.grid xs)
  | MetricKind.heat, xs => l2norm (heatFeat pr.sigma pr.hgrid xs)

/-- Modelled from the spec (§4.3, missing `preprocessing.py`, `Filtering`):
remove every point whose persistence `death - birth` is strictly below the
threshold `ε`. -/
def filtering (ε : ℚ) (xs : List Pt) : List Pt :=
  xs.filter (fun p => decide (ε ≤ p.2 - p.1))

/-- Modelled from the spec (§4.1, missing `preprocessing.py`, `Stacking.fit`):
the per-dimension point-count capacity — the maximum point count across the
reference collection. -/
def maxCount (coll : List (List Pt)) : ℕ := (coll.map List.length).foldr max 0

/-- Minimum birth value of a diagram's points, `0` for an empty diagram. -/
def minBirth : List Pt → ℚ
  | [] => 0
  | p :: ps => (ps.map Prod.fst).foldr qmin p.1

/-- Modelled from the spec (§4.1, missing `preprocessing.py`,
`Stacking.transform`): pad a diagram to the fitted capacity by appending
diagonal points `(b, b)` at the tail, where `b` is the diagram's own minimum
birth (0 if the diagram is empty), preserving the original order. -/
def stackingTransform (cap : ℕ) (xs : List Pt) : List Pt :=
  xs ++ List.replicate (cap - xs.length) (minBirth xs, minBirth xs)

/-- Modelled from the spec (§8): scale a diagram by a constant, multiplying
every birth and death coordinate by `c`. -/
def scaleD (c : ℚ) (xs : List Pt) : List Pt := xs.map (fun p => (c * p.1, c * p.2))

/-- Modelled from the spec (§4.2, missing `preprocessing.py`, `Scaler.fit`):
the fitted scale factor — the maximum per-sample amplitude over the reference
collection under the configured metric (default reducing function `max`). -/
noncomputable def scalerFactor (pr : MetricParams) (m : MetricKind)
    (coll : List (List Pt)) : ℝ :=
  (coll.map (amplitude pr m)).foldr max 0

/-- Modelled from the spec (§4.2, missing `preprocessing.py`,
`Scaler.transform`): divide every birth and death coordinate by the fitted
factor; if the fitted factor is zero the transform is the identity (scaling
is skipped rather than dividing by zero). -/
noncomputable def scalerTransform (pr : MetricParams) (m : MetricKind)
    (coll : List (List Pt)) (X : List (ℝ × ℝ)) : List (ℝ × ℝ) :=
  if scalerFactor pr m coll = 0 then X
  else X.map (fun p => (p.1 / scalerFactor pr m coll, p.2 / scalerFactor pr m coll))

/-!  Embedding of `giotto/mapper/utils/decorators.py` (present in `src/`). -/

/-- A Python runtime value, as far as the decorator utility observes it:
`pynone` stands for Python's `None`. -/
inductive PyVal : Type
  | pynone : PyVal
  | num : ℤ → PyVal
  | arr : List ℤ → PyVal
deriving DecidableEq

/-- A Python instance as seen by `ExtendedEstimator.transform`: its callable
attributes, looked up by name (`hasattr`/`getattr`).  `none` means the
attribute is absent. -/
structure PyInstance : Type where
  attrs : String → Option (PyVal → PyVal)

/-- Embeds `ExtendedEstimator.transform` (decorators.py lines 50-54): if
`hasattr(self, method_name)` then return `getattr(self, method_name)(X)`;
otherwise the `if` falls through and the function returns `None`.  The
argument `y` is accepted and never used, as in the source. -/
def extendedTransform (self : PyInstance) (method_name : String) (X : PyVal)
    (y : Option PyVal) : PyVal :=
  match self.attrs method_name with
  | some f => f X
  | none => PyVal.pynone

/-- A Python class as far as `method_to_transform` observes it: its name, the
names of all classes it (transitively) inherits from, and which method names
its instances possess. -/
structure PyClass : Type where
  name : String
  ancestors : List String
  methods : String → Bool

/-- The sklearn mixin inherited by the wrapped class; it contributes
`fit_transform`. -/
def TransformerMixin : PyClass :=
  ⟨"TransformerMixin", [], fun s => s == "fit_transform"⟩

/-- Embeds `method_to_transform` (decorators.py lines 49-58) at class level:
it builds `class ExtendedEstimator(wrapped, TransformerMixin)` carrying a new
`transform` method, and renames it to `'Extended' + wrapped.__name__`. -/
def method_to_transform (cls : PyClass) (method_name : String) : PyClass :=
  ⟨"Extended" ++ cls.name,
   cls.name :: TransformerMixin.name :: (cls.ancestors ++ TransformerMixin.ancestors),
   fun s => s == "transform" || cls.methods s || TransformerMixin.methods s⟩

/-- Whether `sub` is a (strict) subclass of the class named `sup`. -/
def isSubclassOf (sub : PyClass) (sup : String) : Bool := sup ∈ sub.ancestors

/-!  Theorems. -/

theorem qmax_eq (a b : ℚ) : qmax a b = max a b := (max_def a b).symm

theorem qmin_eq (a b : ℚ) : qmin a b = min a b := (min_def a b).symm

theorem qabs_eq (a : ℚ) : qabs a = |a| := by
  by_cases h : 0 ≤ a
  · rw [qabs, if_pos h, abs_of_nonneg h]
  · rw [qabs, if_neg h, abs_of_neg (lt_of_not_le h)]

theorem qpow_eq (a : ℚ) (n : ℕ) : qpow a n = a ^ n := by
  induction n with
  | zero => rfl
  | succ n ih => rw [qpow, ih, pow_succ]; ring

theorem qmin_le_left (a b : ℚ) : qmin a b ≤ a := by rw [qmin_eq]; exact min_le_left a b

theorem qmin_le_right (a b : ℚ) : qmin a b ≤ b := by rw [qmin_eq]; exact min_le_right a b

theorem qmin_cases (a b : ℚ) : qmin a b = a ∨ qmin a b = b := by
  unfold qmin; split
  · exact Or.inl rfl
  · exact Or.inr rfl

theorem foldr_qmin_le_init (c : ℚ) (cs : List ℚ) : cs.foldr qmin c ≤ c := by
  induction cs with
  | nil => exact le_refl c
  | cons a cs ih => exact le_trans (qmin_le_right _ _) ih

theorem foldr_qmin_le_mem {a : ℚ} {cs : List ℚ} (c : ℚ) (h : a ∈ cs) :
    cs.foldr qmin c ≤ a := by
  induction cs with
  | nil => cases h
  | cons b cs ih =>
    rcases List.mem_cons.mp h with rfl | h
    · exact qmin_le_left _ _
    · exact le_trans (qmin_le_right _ _) (ih h)

theorem foldr_qmin_mem (c : ℚ) (cs : List ℚ) : cs.foldr qmin c ∈ c :: cs := by
  induction cs with
  | nil => simp
  | cons a cs ih =>
    rw [List.foldr_cons]
    rcases qmin_cases a (cs.foldr qmin c) with h | h
    · rw [h]; simp
    · rw [h]
      rcases List.mem_cons.mp ih with h' | h' <;> simp [h']

theorem listMinD_le {l : List ℚ} {a : ℚ} (h : a ∈ l) : listMinD l ≤ a := by
  cases l with
  | nil => cases h
  | cons c cs =>
    rcases List.mem_cons.mp h with rfl | h
    · exact foldr_qmin_le_init _ _
    · exact foldr_qmin_le_mem _ h

theorem listMinD_mem {l : List ℚ} (h : l ≠ []) : listMinD l ∈ l := by
  cases l with
  | nil => exact absurd rfl h
  | cons c cs => exact foldr_qmin_mem c cs

theorem matchings_nil_right (xs : List Pt) : matchings xs [] = [xs.map diagCost] := by
  induction xs with
  | nil => rfl
  | cons x xs ih => simp [matchings, pick, ih]

theorem matchings_ne_nil (xs ys : List Pt) : matchings xs ys ≠ [] := by
  induction xs with
  | nil => simp [matchings]
  | cons x xs ih =>
    rw [matchings]
    intro hc
    rcases List.append_eq_nil.mp hc with ⟨h1, _⟩
    exact ih (List.map_eq_nil_iff.mp h1)

theorem bottleneck_empty_right (xs : List Pt) :
    bottleneck xs [] = (xs.map diagCost).foldr qmax 0 := by
  rw [bottleneck, matchings_nil_right]; rfl

theorem wassersteinPow_empty_right (p : ℕ) (xs : List Pt) :
    wassersteinPow p xs [] = sumPow p (xs.map diagCost) := by
  rw [wassersteinPow, matchings_nil_right]; rfl

/-- C2: for the diagram `A = {(0,1), (0,2)}` in dimension 0 and the empty
diagram `B`, the bottleneck metric kernel returns exactly `1`, half of the
larger persistence `2`: each point matched to the diagonal costs half its own
persistence. -/
theorem bottleneck_pair_vs_empty_eq_one :
    bottleneck [((0 : ℚ), 1), ((0 : ℚ), 2)] [] = 1 := by
  norm_num [bottleneck, matchings, pick, aggMax, listMinD, diagCost, cheb, qmax, qmin, qabs]

theorem zipWith_sub_zeros (v w : List ℝ) (hw : ∀ x ∈ w, x = 0)
    (hl : v.length = w.length) : List.zipWith (fun a b => a - b) v w = v := by
  induction v generalizing w with
  | nil => cases w <;> simp
  | cons a v ih =>
    cases w with
    | nil => simp at hl
    | cons b w =>
      have hb : b = 0 := hw b (by simp)
      have hw' : ∀ x ∈ w, x = 0 := fun x hx => hw x (by simp [hx])
      simp [hb, ih w hw' (by simpa using hl)]

theorem l2diff_zeros (v w : List ℝ) (hw : ∀ x ∈ w, x = 0)
    (hl : v.length = w.length) : l2diff v w = l2norm v := by
  rw [l2diff, l2norm, zipWith_sub_zeros v w hw hl]

theorem bettiFeat_nil (grid : List ℚ) : bettiFeat grid [] = grid.map (fun _ => (0 : ℝ)) := by
  simp [bettiFeat, bettiAt]

theorem kthLargest_nil (k : ℕ) : kthLargest k [] = 0 := rfl

theorem landFeatQ_nil_mem (K : ℕ) (grid : List ℚ) :
    ∀ x ∈ landFeatQ K grid [], x = 0 := by
  intro x hx
  simp only [landFeatQ, List.mem_flatten, List.mem_map] at hx
  obtain ⟨l, ⟨k, _, rfl⟩, hxl⟩ := hx
  simp only [List.map_nil, List.mem_map] at hxl
  obtain ⟨t, _, rfl⟩ := hxl
  rfl

theorem landFeatQ_length (K : ℕ) (grid : List ℚ) (xs : List Pt) :
    (landFeatQ K grid xs).length = K * grid.length := by
  rw [landFeatQ, List.length_flatten, List.map_map]
  have h : (List.length ∘ fun k =>
      List.map (fun t => kthLargest (k + 1) (List.map (fun p => tent p t) xs)) grid) =
      fun _ => grid.length := by

    funext k; simp
  rw [h, List.map_const', List.sum_replicate, List.length_range, smul_eq_mul]

theorem landFeat_nil_mem (K : ℕ) (grid : List ℚ) :
    ∀ x ∈ landFeat K grid [], x = 0 := by
  intro x hx
  rw [landFeat] at hx
  rcases List.mem_map.mp hx with ⟨a, ha, rfl⟩
  rw [landFeatQ_nil_mem K grid a ha, Rat.cast_zero]

theorem heatFeat_nil (σ : ℝ) (hgrid : List (ℚ × ℚ)) :
    heatFeat σ hgrid [] = hgrid.map (fun _ => (0 : ℝ)) := by
  simp [heatFeat]

theorem cheb_comm (p q : Pt) : cheb p q = cheb q p := by
  simp [cheb, qabs_eq, abs_sub_comm]

theorem mem_pick_head (a : α) (as : List α) : (a, as) ∈ pick (a :: as) := by
  rw [pick]; exact List.mem_cons_self _ _

theorem mem_pick_tail {a : α} {as : List α} {y : α} {rest : List α}
    (h : (y, rest) ∈ pick as) : (y, a :: rest) ∈ pick (a :: as) := by
  rw [pick]
  exact List.mem_cons_of_mem _ (List.mem_map.mpr ⟨(y, rest), h, rfl⟩)

theorem mem_pick_cons {y0 : α} {ys0 : List α} {y : α} {rest : List α}
    (h : (y, rest) ∈ pick (y0 :: ys0)) :
    (y = y0 ∧ rest = ys0) ∨ ∃ rest0, (y, rest0) ∈ pick ys0 ∧ rest = y0 :: rest0 := by
  rw [pick] at h
  rcases List.mem_cons.mp h with h | h
  · left
    exact ⟨congrArg Prod.fst h, congrArg Prod.snd h⟩
  · right
    rcases List.mem_map.mp h with ⟨q, hq, hEq⟩
    refine ⟨q.2, ?_, (congrArg Prod.snd hEq).symm⟩
    have h1 : q.1 = y := congrArg Prod.fst hEq
    rw [← h1]
    exact hq

theorem mem_matchings_diag {x : Pt} {xs ys : List Pt} {cs : List ℚ}
    (h : cs ∈ matchings xs ys) : diagCost x :: cs ∈ matchings (x :: xs) ys := by
  rw [matchings]
  exact List.mem_append_left _ (List.mem_map.mpr ⟨cs, h, rfl⟩)

theorem mem_matchings_pair {x : Pt} {xs ys : List Pt} {y : Pt} {rest : List Pt} {cs : List ℚ}
    (hy : (y, rest) ∈ pick ys) (h : cs ∈ matchings xs rest) :
    cheb x y :: cs ∈ matchings (x :: xs) ys := by
  rw [matchings]
  refine List.mem_append_right _ ?_
  rw [List.mem_flatMap]
  exact ⟨(y, rest), hy, List.mem_map.mpr ⟨cs, h, rfl⟩⟩

theorem mem_matchings_cons {x : Pt} {xs ys : List Pt} {cs : List ℚ}
    (h : cs ∈ matchings (x :: xs) ys) :
    (∃ cs0, cs0 ∈ matchings xs ys ∧ cs = diagCost x :: cs0) ∨
      (∃ y rest cs0, (y, rest) ∈ pick ys ∧ cs0 ∈ matchings xs rest ∧
        cs = cheb x y :: cs0) := by
  rw [matchings] at h
  rcases List.mem_append.mp h with h | h
  · rcases List.mem_map.mp h with ⟨cs0, h0, hEq⟩
    exact Or.inl ⟨cs0, h0, hEq.symm⟩
  · rw [List.mem_flatMap] at h
    rcases h with ⟨q, hq, h⟩
    rcases List.mem_map.mp h with ⟨cs0, h0, hEq⟩
    exact Or.inr ⟨q.1, q.2, cs0, by rwa [Prod.mk.eta], h0, hEq.symm⟩

theorem matchings_insert_diag_right (x : Pt) (ys : List Pt) :
    ∀ (xs : List Pt) (cs : List ℚ), cs ∈ matchings ys xs →
      ∃ cs', cs' ∈ matchings ys (x :: xs) ∧ cs'.Perm (diagCost x :: cs) := by
  induction ys with
  | nil =>
    intro xs cs h
    simp only [matchings, List.mem_singleton] at h
    subst h
    exact ⟨(x :: xs).map diagCost, by simp [matchings], List.Perm.refl _⟩
  | cons y0 ys0 ih =>
    intro xs cs h
    rcases mem_matchings_cons h with ⟨cs0, h0, rfl⟩ | ⟨z, r, cs0, hz, h0, rfl⟩
    · rcases ih xs cs0 h0 with ⟨d, hd, hperm⟩
      exact ⟨diagCost y0 :: d, mem_matchings_diag hd,
        (hperm.cons _).trans (List.Perm.swap _ _ _)⟩
    · rcases ih r cs0 h0 with ⟨d, hd, hperm⟩
      exact ⟨cheb y0 z :: d, mem_matchings_pair (mem_pick_tail hz) hd,
        (hperm.cons _).trans (List.Perm.swap _ _ _)⟩

theorem matchings_insert_pair_right (x : Pt) (ys : List Pt) :
    ∀ (xs : List Pt) (y : Pt) (rest : List Pt) (cs : List ℚ),
      (y, rest) ∈ pick ys → cs ∈ matchings rest xs →
      ∃ cs', cs' ∈ matchings ys (x :: xs) ∧ cs'.Perm (cheb y x :: cs) := by
  induction ys with
  | nil =>
    intro xs y rest cs hy
    rw [pick] at hy
    cases hy
  | cons y0 ys0 ih =>
    intro xs y rest cs hy hcs
    rcases mem_pick_cons hy with ⟨rfl, rfl⟩ | ⟨rest0, hy0, rfl⟩
    · refine ⟨_, mem_matchings_pair (mem_pick_head x xs) hcs, ?_⟩
      exact List.Perm.refl _
    · rcases mem_matchings_cons hcs with ⟨d, hd, rfl⟩ | ⟨z, r, d, hz, hd, rfl⟩
      · rcases ih xs y rest0 d hy0 hd with ⟨e, he, hperm⟩
        exact ⟨diagCost y0 :: e, mem_matchings_diag he,
          (hperm.cons _).trans (List.Perm.swap _ _ _)⟩
      · rcases ih r y rest0 d hy0 hd with ⟨e, he, hperm⟩
        exact ⟨cheb y0 z :: e, mem_matchings_pair (mem_pick_tail hz) he,
          (hperm.cons _).trans (List.Perm.swap _ _ _)⟩

theorem matchings_comm_mem :
    ∀ (xs ys : List Pt) (cs : List ℚ), cs ∈ matchings xs ys →
      ∃ cs', cs' ∈ matchings ys xs ∧ cs'.Perm cs := by
  intro xs
  induction xs with
  | nil =>
    intro ys cs h
    simp only [matchings, List.mem_singleton] at h
    subst h
    exact ⟨ys.map diagCost, by rw [matchings_nil_right]; simp, List.Perm.refl _⟩
  | cons x xs ih =>
    intro ys cs h
    rcases mem_matchings_cons h with ⟨cs0, h0, rfl⟩ | ⟨y, rest, cs0, hy, h0, rfl⟩
    · rcases ih ys cs0 h0 with ⟨c1, hc1, hp1⟩
      rcases matchings_insert_diag_right x ys xs c1 hc1 with ⟨cs', hcs', hp2⟩
      exact ⟨cs', hcs', hp2.trans (hp1.cons _)⟩
    · rcases ih rest cs0 h0 with ⟨c1, hc1, hp1⟩
      rcases matchings_insert_pair_right x ys xs y rest c1 hy hc1 with ⟨cs', hcs', hp2⟩
      refine ⟨cs', hcs', hp2.trans ?_⟩
      rw [cheb_comm y x]
      exact hp1.cons _

theorem aggMax_perm {cs cs' : List ℚ} (h : cs.Perm cs') : aggMax cs = aggMax cs' := by
  unfold aggMax
  induction h with
  | nil => rfl
  | cons a _ ih => rw [List.foldr_cons, List.foldr_cons, ih]
  | swap a b l =>
    rw [List.foldr_cons, List.foldr_cons, List.foldr_cons, List.foldr_cons,
      qmax_eq, qmax_eq, qmax_eq, qmax_eq, max_left_comm]
  | trans _ _ ih1 ih2 => exact ih1.trans ih2

theorem sumPow_perm (p : ℕ) {cs cs' : List ℚ} (h : cs.Perm cs') :
    sumPow p cs = sumPow p cs' := by
  unfold sumPow
  exact (h.map _).sum_eq

theorem minOverMatchings_comm (agg : List ℚ → ℚ)
    (hagg : ∀ {c c' : List ℚ}, c.Perm c' → agg c = agg c') (xs ys : List Pt) :
    listMinD ((matchings xs ys).map agg) = listMinD ((matchings ys xs).map agg) := by
  have key : ∀ us vs : List Pt,
      listMinD ((matchings us vs).map agg) ≤ listMinD ((matchings vs us).map agg) := by
    intro us vs
    have hne : (matchings vs us).map agg ≠ [] := fun hc =>
      matchings_ne_nil vs us (List.map_eq_nil_iff.mp hc)
    rcases List.mem_map.mp (listMinD_mem hne) with ⟨cs', hcs', hEq⟩
    rcases matchings_comm_mem vs us cs' hcs' with ⟨cs, hcs, hperm⟩
    calc listMinD ((matchings us vs).map agg)
        ≤ agg cs := listMinD_le (List.mem_map.mpr ⟨cs, hcs, rfl⟩)
      _ = agg cs' := hagg hperm
      _ = listMinD ((matchings vs us).map agg) := hEq
  exact le_antisymm (key xs ys) (key ys xs)

theorem bottleneck_comm (xs ys : List Pt) : bottleneck xs ys = bottleneck ys xs :=
  minOverMatchings_comm aggMax (fun h => aggMax_perm h) xs ys

theorem wassersteinPow_comm (p : ℕ) (xs ys : List Pt) :
    wassersteinPow p xs ys = wassersteinPow p ys xs :=
  minOverMatchings_comm (sumPow p) (fun h => sumPow_perm p h) xs ys

theorem zipWith_sub_sq_comm (v : List ℝ) :
    ∀ w : List ℝ, ((List.zipWith (fun a b => a - b) v w).map (fun a => a ^ 2)) =
      ((List.zipWith (fun a b => a - b) w v).map (fun a => a ^ 2)) := by
  induction v with
  | nil => intro w; cases w <;> rfl
  | cons a v ih =>
    intro w
    cases w with
    | nil => rfl
    | cons b w =>
      have hsq : (a - b) ^ 2 = (b - a) ^ 2 := by ring
      simp only [List.zipWith_cons_cons, List.map_cons, hsq, ih w]

theorem l2diff_comm (v w : List ℝ) : l2diff v w = l2diff w v := by
  rw [l2diff, l2diff, zipWith_sub_sq_comm]

/-- C3: each of the five metric kernels is symmetric in its two diagram
arguments. -/
theorem metricDist_comm (pr : MetricParams) (m : MetricKind) (xs ys : List Pt) :
    metricDist pr m xs ys = metricDist pr m ys xs := by
  cases m with
  | bottleneck => simp [metricDist, bottleneck_comm xs ys]
  | wasserstein p => simp [metricDist, wassersteinDist, wassersteinPow_comm p xs ys]
  | landscape => simp [metricDist, l2diff_comm]
  | betti => simp [metricDist, l2diff_comm]
  | heat => simp [metricDist, l2diff_comm]

theorem cheb_scale {c : ℚ} (hc : 0 ≤ c) (p q : Pt) :
    cheb (c * p.1, c * p.2) (c * q.1, c * q.2) = c * cheb p q := by
  simp only [cheb, qmax_eq, qabs_eq]
  rw [← mul_sub, ← mul_sub, abs_mul, abs_mul, abs_of_nonneg hc,
    mul_max_of_nonneg _ _ hc]

theorem diagCost_scale (c : ℚ) (p : Pt) :
    diagCost (c * p.1, c * p.2) = c * diagCost p := by
  simp only [diagCost]
  ring

theorem pick_map (f : α → β) : ∀ l : List α,
    pick (l.map f) = (pick l).map (fun q => (f q.1, q.2.map f)) := by
  intro l
  induction l with
  | nil => rfl
  | cons a as ih => simp [pick, ih, List.map_map, Function.comp]

theorem matchings_scale {c : ℚ} (hc : 0 ≤ c) :
    ∀ xs ys : List Pt, matchings (scaleD c xs) (scaleD c ys) =
      (matchings xs ys).map (List.map (fun a => c * a)) := by
  intro xs
  induction xs with
  | nil =>
    intro ys
    simp only [scaleD, matchings, List.map_map, List.map_cons, List.map_nil]
    congr 1
    apply List.map_congr_left
    intro p _
    exact diagCost_scale c p
  | cons x xs ih =>
    intro ys
    have hx : scaleD c (x :: xs) = (c * x.1, c * x.2) :: scaleD c xs := rfl
    rw [hx, matchings, matchings, List.map_append]
    congr 1
    · rw [ih, List.map_map, List.map_map]
      apply List.map_congr_left
      intro cs _
      simp [Function.comp, diagCost_scale c x]
    · rw [scaleD, pick_map, List.flatMap_map, List.map_flatMap]
      congr 1
      funext q
      have h2 : q.2.map (fun p => (c * p.1, c * p.2)) = scaleD c q.2 := rfl
      show (matchings (scaleD c xs) (q.2.map (fun p => (c * p.1, c * p.2)))).map _ = _
      rw [h2, ih q.2, List.map_map, List.map_map]
      apply List.map_congr_left
      intro cs _
      show cheb (c * x.1, c * x.2) (c * q.1.1, c * q.1.2) :: List.map (fun a => c * a) cs =
        List.map (fun a => c * a) (cheb x q.1 :: cs)
      rw [List.map_cons, cheb_scale hc x q.1]

theorem sumPow_map_mul (p : ℕ) (c : ℚ) (cs : List ℚ) :
    sumPow p (cs.map (fun a => c * a)) = c ^ p * sumPow p cs := by
  unfold sumPow
  rw [List.map_map]
  have h : ((fun a => qpow a p) ∘ fun a => c * a) = fun a => c ^ p * qpow a p := by
    funext a
    rw [Function.comp_apply, qpow_eq, qpow_eq, mul_pow]
  rw [h, List.sum_map_mul_left]

theorem foldr_qmin_map_mul {c : ℚ} (hc : 0 ≤ c) (a : ℚ) (cs : List ℚ) :
    (cs.map (fun b => c * b)).foldr qmin (c * a) = c * cs.foldr qmin a := by
  induction cs generalizing a with
  | nil => rfl
  | cons b cs ih =>
    rw [List.map_cons, List.foldr_cons, List.foldr_cons, ih, qmin_eq, qmin_eq,
      mul_min_of_nonneg _ _ hc]

theorem listMinD_map_mul {c : ℚ} (hc : 0 ≤ c) (l : List ℚ) :
    listMinD (l.map (fun b => c * b)) = c * listMinD l := by
  cases l with
  | nil => simp [listMinD]
  | cons a l => exact foldr_qmin_map_mul hc a l

theorem wassersteinPow_scale (p : ℕ) {c : ℚ} (hc : 0 ≤ c) (xs ys : List Pt) :
    wassersteinPow p (scaleD c xs) (scaleD c ys) = c ^ p * wassersteinPow p xs ys := by
  rw [wassersteinPow, wassersteinPow, matchings_scale hc, List.map_map]
  have h : (sumPow p ∘ List.map (fun a => c * a)) =
      (fun b => c ^ p * b) ∘ sumPow p := by
    funext cs
    exact sumPow_map_mul p c cs
  rw [h, ← List.map_map, listMinD_map_mul (pow_nonneg hc p)]

theorem cheb_nonneg (p q : Pt) : 0 ≤ cheb p q := by
  rw [cheb, qmax_eq, qabs_eq]
  exact le_max_of_le_left (abs_nonneg _)

theorem diagCost_nonneg {p : Pt} (h : p.1 ≤ p.2) : 0 ≤ diagCost p :=
  div_nonneg (sub_nonneg.mpr h) (by norm_num)

theorem pick_mem_sub : ∀ {ys : List Pt} {y : Pt} {rest : List Pt},
    (y, rest) ∈ pick ys → y ∈ ys ∧ ∀ a ∈ rest, a ∈ ys := by
  intro ys
  induction ys with
  | nil =>
    intro y rest h
    rw [pick] at h
    cases h
  | cons b bs ih =>
    intro y rest h
    rcases mem_pick_cons h with ⟨rfl, rfl⟩ | ⟨rest0, h0, rfl⟩
    · exact ⟨List.mem_cons_self _ _, fun a ha => List.mem_cons_of_mem _ ha⟩
    · rcases ih h0 with ⟨hy, hsub⟩
      refine ⟨List.mem_cons_of_mem _ hy, ?_⟩
      intro a ha
      rcases List.mem_cons.mp ha with rfl | ha
      · exact List.mem_cons_self _ _
      · exact List.mem_cons_of_mem _ (hsub a ha)

theorem matchings_costs_nonneg :
    ∀ (xs ys : List Pt), (∀ q ∈ xs, q.1 ≤ q.2) → (∀ q ∈ ys, q.1 ≤ q.2) →
      ∀ cs ∈ matchings xs ys, ∀ a ∈ cs, 0 ≤ a := by
  intro xs
  induction xs with
  | nil =>
    intro ys _ hys cs hcs a ha
    simp only [matchings, List.mem_singleton] at hcs
    subst hcs
    rcases List.mem_map.mp ha with ⟨q, hq, rfl⟩
    exact diagCost_nonneg (hys q hq)
  | cons x xs ih =>
    intro ys hxs hys cs hcs a ha
    have hxs' : ∀ q ∈ xs, q.1 ≤ q.2 := fun q hq => hxs q (List.mem_cons_of_mem _ hq)
    rcases mem_matchings_cons hcs with ⟨cs0, h0, rfl⟩ | ⟨y, rest, cs0, hy, h0, rfl⟩
    · rcases List.mem_cons.mp ha with rfl | ha
      · exact diagCost_nonneg (hxs x (List.mem_cons_self _ _))
      · exact ih ys hxs' hys cs0 h0 a ha
    · rcases List.mem_cons.mp ha with rfl | ha
      · exact cheb_nonneg x y
      · have hrest : ∀ q ∈ rest, q.1 ≤ q.2 :=
          fun q hq => hys q ((pick_mem_sub hy).2 q hq)
        exact ih rest hxs' hrest cs0 h0 a ha

theorem sumPow_nonneg (p : ℕ) {cs : List ℚ} (h : ∀ a ∈ cs, 0 ≤ a) :
    0 ≤ sumPow p cs := by
  unfold sumPow
  apply List.sum_nonneg
  intro b hb
  rcases List.mem_map.mp hb with ⟨a, ha, rfl⟩
  rw [qpow_eq]
  exact pow_nonneg (h a ha) p

theorem wassersteinPow_nonneg (p : ℕ) {xs ys : List Pt}
    (hxs : ∀ q ∈ xs, q.1 ≤ q.2) (hys : ∀ q ∈ ys, q.1 ≤ q.2) :
    0 ≤ wassersteinPow p xs ys := by
  rw [wassersteinPow]
  have hne : (matchings xs ys).map (sumPow p) ≠ [] := fun hc =>
    matchings_ne_nil xs ys (List.map_eq_nil_iff.mp hc)
  rcases List.mem_map.mp (listMinD_mem hne) with ⟨cs, hcs, hEq⟩
  rw [← hEq]
  exact sumPow_nonneg p (matchings_costs_nonneg xs ys hxs hys cs hcs)

/-- C4: multiplying all birth and death coordinates by a constant `c > 0`
multiplies the Wasserstein-`p` distance by exactly `c` (positive homogeneity
of degree 1). -/
theorem wassersteinDist_scale (p : ℕ) (c : ℚ) (xs ys : List Pt)
    (hp : 1 ≤ p) (hc : 0 < c)
    (hxs : ∀ q ∈ xs, q.1 ≤ q.2) (hys : ∀ q ∈ ys, q.1 ≤ q.2) :
    wassersteinDist p (scaleD c xs) (scaleD c ys) =
      (c : ℝ) * wassersteinDist p xs ys := by
  rw [wassersteinDist, wassersteinDist, wassersteinPow_scale p hc.le]
  have hW : (0 : ℝ) ≤ ((wassersteinPow p xs ys : ℚ) : ℝ) := by
    exact_mod_cast wassersteinPow_nonneg p hxs hys
  have hcR : (0 : ℝ) ≤ (c : ℝ) := by exact_mod_cast hc.le
  have hcast : (((c ^ p * wassersteinPow p xs ys : ℚ)) : ℝ) =
      ((c : ℝ)) ^ p * ((wassersteinPow p xs ys : ℚ) : ℝ) := by
    push_cast
    ring
  rw [hcast, Real.mul_rpow (pow_nonneg hcR p) hW]
  congr 1
  have hpne : ((p : ℕ) : ℝ) ≠ 0 := Nat.cast_ne_zero.mpr (by omega)
  rw [← Real.rpow_natCast (c : ℝ) p, ← Real.rpow_mul hcR, mul_inv_cancel₀ hpne,
    Real.rpow_one]

/-- Witness for C4 at `p = 1`, `c = 2`, diagrams `{(0,1)}` and `{}`. -/
theorem wassersteinDist_scale_witness :
    (1 ≤ 1) ∧ ((0 : ℚ) < 2) ∧ (∀ q ∈ [((0 : ℚ), 1)], q.1 ≤ q.2) ∧
      (∀ q ∈ ([] : List Pt), q.1 ≤ q.2) ∧
      wassersteinDist 1 (scaleD 2 [((0 : ℚ), 1)]) (scaleD 2 []) =
        ((2 : ℚ) : ℝ) * wassersteinDist 1 [((0 : ℚ), 1)] [] :=
  ⟨le_refl 1, by decide, by decide, by decide,
    wassersteinDist_scale 1 2 [((0 : ℚ), 1)] [] (le_refl 1) (by decide) (by decide)
      (by decide)⟩

/-- C1: for every diagram and every supported metric name, the amplitude of
the diagram equals the metric distance between the diagram and the empty
diagram. -/
theorem amplitude_eq_dist_to_empty (pr : MetricParams) (m : MetricKind) (xs : List Pt) :
    amplitude pr m xs = metricDist pr m xs [] := by
  cases m with
  | bottleneck =>
    simp [amplitude, metricDist, bottleneck_empty_right]
  | wasserstein p =>
    simp [amplitude, metricDist, wassersteinDist, wassersteinPow_empty_right]
  | landscape =>
    rw [metricDist, amplitude]
    refine (l2diff_zeros _ _ (landFeat_nil_mem _ _) ?_).symm
    rw [landFeat, landFeat, List.length_map, List.length_map, landFeatQ_length,
      landFeatQ_length]
  | betti =>
    rw [metricDist, amplitude]
    refine (l2diff_zeros _ _ ?_ ?_).symm
    · rw [bettiFeat_nil]; intro x hx; simp at hx; obtain ⟨t, _, rfl⟩ := hx; rfl
    · simp [bettiFeat_nil, bettiFeat]
  | heat =>
    rw [metricDist, amplitude]
    refine (l2diff_zeros _ _ ?_ ?_).symm
    · rw [heatFeat_nil]; intro x hx; simp at hx; obtain ⟨t, _, rfl⟩ := hx; rfl
    · simp [heatFeat_nil, heatFeat]

/-- C5: filtering with threshold `ε = 0` is the identity on any diagram all
of whose points have strictly positive persistence. -/
theorem filtering_zero_id (xs : List Pt) (h : ∀ p ∈ xs, 0 < p.2 - p.1) :
    filtering 0 xs = xs := by
  rw [filtering]
  apply List.filter_eq_self.mpr
  intro p hp
  exact decide_eq_true (le_of_lt (h p hp))

/-- Witness for C5 on the diagram `{(0,1), (0,2)}`. -/
theorem filtering_zero_id_witness :
    (∀ p ∈ [((0 : ℚ), 1), ((0 : ℚ), 2)], 0 < p.2 - p.1) ∧
      filtering 0 [((0 : ℚ), 1), ((0 : ℚ), 2)] = [((0 : ℚ), 1), ((0 : ℚ), 2)] :=
  ⟨by simp, filtering_zero_id _ (by simp)⟩

/-- C6: stacking pads each diagram at the tail, so removing the injected
diagonal padding (the appended suffix) recovers exactly the original
diagram's points, up to reordering. -/
theorem stacking_roundtrip (coll : List (List Pt)) (xs : List Pt)
    (hne : coll ≠ []) (hmem : xs ∈ coll) :
    ((stackingTransform (maxCount coll) xs).take xs.length).Perm xs := by
  rw [stackingTransform, List.take_left]

/-- Witness for C6 on the collection `[{(0,1)}, {(0,2), (1,3)}]` and its
first sample. -/
theorem stacking_roundtrip_witness :
    (([[((0 : ℚ), 1)], [((0 : ℚ), 2), ((1 : ℚ), 3)]] : List (List Pt)) ≠ []) ∧
      ([((0 : ℚ), 1)] ∈ ([[((0 : ℚ), 1)], [((0 : ℚ), 2), ((1 : ℚ), 3)]] : List (List Pt))) ∧
      ((stackingTransform (maxCount [[((0 : ℚ), 1)], [((0 : ℚ), 2), ((1 : ℚ), 3)]])
        [((0 : ℚ), 1)]).take [((0 : ℚ), 1)].length).Perm [((0 : ℚ), 1)] :=
  ⟨by decide, by decide,
    stacking_roundtrip [[((0 : ℚ), 1)], [((0 : ℚ), 2), ((1 : ℚ), 3)]] [((0 : ℚ), 1)]
      (by decide) (by decide)⟩

/-- C7: when the fitted scale factor is zero (all reference diagrams
trivial), the Scaler's transform is the identity on every input diagram —
scaling is skipped rather than dividing by zero. -/
theorem scaler_zero_factor_id (pr : MetricParams) (m : MetricKind)
    (coll : List (List Pt)) (X : List (ℝ × ℝ))
    (h : scalerFactor pr m coll = 0) :
    scalerTransform pr m coll X = X := by
  rw [scalerTransform, if_pos h]

/-- Witness for C7: a reference collection holding one empty diagram has
fitted bottleneck factor `0`, and the transform returns its input. -/
theorem scaler_zero_factor_id_witness :
    scalerFactor ⟨[], 0, [], 1⟩ MetricKind.bottleneck [[]] = 0 ∧
      scalerTransform ⟨[], 0, [], 1⟩ MetricKind.bottleneck [[]] [((1 : ℝ), 2)] =
        [((1 : ℝ), 2)] := by
  have h : scalerFactor ⟨[], 0, [], 1⟩ MetricKind.bottleneck [[]] = 0 := by
    simp [scalerFactor, amplitude]
  exact ⟨h, scaler_zero_factor_id _ _ _ _ h⟩

/-- C8: when the instance has an attribute named `method_name`, the wrapped
`transform` returns exactly that attribute applied to `X`, and the optional
argument `y` never influences the result. -/
theorem extendedTransform_returns_method (self : PyInstance) (method_name : String)
    (X : PyVal) (y : Option PyVal) (f : PyVal → PyVal)
    (h : self.attrs method_name = some f) :
    extendedTransform self method_name X y = f X ∧
      ∀ y' : Option PyVal,
        extendedTransform self method_name X y' = extendedTransform self method_name X y := by
  constructor
  · rw [extendedTransform, h]
  · intro y'
    rfl

/-- Witness for C8 on an instance with a single callable attribute. -/
theorem extendedTransform_returns_method_witness :
    ((⟨fun s => if s = "score" then some id else none⟩ : PyInstance).attrs "score" =
        some id) ∧
      extendedTransform ⟨fun s => if s = "score" then some id else none⟩ "score"
        (PyVal.num 3) none = id (PyVal.num 3) :=
  ⟨rfl,
    (extendedTransform_returns_method ⟨fun s => if s = "score" then some id else none⟩
      "score" (PyVal.num 3) none id rfl).1⟩

/-- C9: when `method_name` is not an attribute of the instance, the wrapped
`transform` returns `None` for every input (the missing-attribute branch
falls through without a `return`); it does not raise. -/
theorem extendedTransform_missing_returns_none (self : PyInstance)
    (method_name : String) (h : self.attrs method_name = none) (X : PyVal)
    (y : Option PyVal) :
    extendedTransform self method_name X y = PyVal.pynone := by
  rw [extendedTransform, h]

/-- Witness for C9 on an instance with no attributes. -/
theorem extendedTransform_missing_returns_none_witness :
    ((⟨fun _ => none⟩ : PyInstance).attrs "score" = none) ∧
      extendedTransform ⟨fun _ => none⟩ "score" (PyVal.num 7) none = PyVal.pynone :=
  ⟨rfl, extendedTransform_missing_returns_none ⟨fun _ => none⟩ "score" rfl
    (PyVal.num 7) none⟩

/-- C10: `method_to_transform` returns a class named `'Extended' + cls.name`
that is a subclass of both `cls` and sklearn's `TransformerMixin`, so
`fit_transform` is available on it. -/
theorem method_to_transform_class_shape (cls : PyClass) (method_name : String) :
    (method_to_transform cls method_name).name = "Extended" ++ cls.name ∧
      isSubclassOf (method_to_transform cls method_name) cls.name = true ∧
      isSubclassOf (method_to_transform cls method_name) TransformerMixin.name = true ∧
      (method_to_transform cls method_name).methods "fit_transform" = true := by
  refine ⟨rfl, ?_, ?_, ?_⟩
  · simp [isSubclassOf, method_to_transform]
  · simp [isSubclassOf, method_to_transform, TransformerMixin]
  · simp [method_to_transform, TransformerMixin]
